import Mathlib

/-!
Verification model of the `page_rank` pipeline.

Strings of the source are modelled as `List Char`; polars dataframes as lists
of row structures; nullable columns as `Option`; the polars date type as a
calendar-date structure ordered by a numeric key.  Randomness (`random.randint`
in `fill_date`) is modelled by an explicit supply `Nat → Nat × Nat` of draws.
The graph-tool calls `is_DAG` and `pagerank` are external library code; they
are modelled from the specification (standard cycle detection; power-iteration
with uniform teleportation and dangling-mass redistribution) over exact
rationals.
-/

/-- Calendar date (year, month, day). -/
structure MDate where
  year : Nat
  month : Nat
  day : Nat
deriving DecidableEq

/-- Numeric key that realises calendar order on dates (month < 100, day < 100
for every parsed date). -/
def MDate.key (d : MDate) : Nat := d.year * 10000 + d.month * 100 + d.day

instance : LT MDate := ⟨fun a b => a.key < b.key⟩

instance (a b : MDate) : Decidable (a < b) :=
  inferInstanceAs (Decidable (a.key < b.key))

/-- Gregorian leap-year rule, as validated by the chrono date parser behind
polars `str.strptime`. -/
def isLeap (y : Nat) : Bool := (y % 4 == 0 && y % 100 != 0) || (y % 400 == 0)

/-- Number of days of a month, as validated by the date parser. -/
def daysInMonth (y m : Nat) : Nat :=
  if m = 2 then (if isLeap y then 29 else 28)
  else if m = 4 ∨ m = 6 ∨ m = 9 ∨ m = 11 then 30 else 31

/-- Build a date after range-checking month and day. -/
def mkValidDate (y m d : Nat) : Option MDate :=
  if 1 ≤ m ∧ m ≤ 12 ∧ 1 ≤ d ∧ d ≤ daysInMonth y m then some ⟨y, m, d⟩ else none

/-- Numeric value of a digit character. -/
def digitVal (c : Char) : Nat := c.toNat - '0'.toNat

/-- Value of a digit string. -/
def parseDigits (cs : List Char) : Nat := cs.foldl (fun a c => a * 10 + digitVal c) 0

/-- Parse a fixed-width decimal field. -/
def parseFixedNat (n : Nat) (cs : List Char) : Option Nat :=
  if cs.length = n ∧ cs.all Char.isDigit then some (parseDigits cs) else none

/-- Model of `str.strptime(pl.Date, %Y-%m-%d, strict=False)`: a ten-character
`YYYY-MM-DD` string with a calendar-valid month and day parses to a date,
anything else yields null (`none`). -/
def dateParse (cs : List Char) : Option MDate :=
  if cs.length = 10 ∧ cs[4]? = some '-' ∧ cs[7]? = some '-' then
    match parseFixedNat 4 (cs.take 4), parseFixedNat 2 ((cs.drop 5).take 2),
        parseFixedNat 2 ((cs.drop 8).take 2) with
    | some y, some m, some d => mkValidDate y m d
    | _, _, _ => none
  else none

/-- Model of Python `int(s)` on an id-or-year string (the strict
`cast(pl.Int64)` and the `int` parse of a year component): digits only. -/
def castInt (cs : List Char) : Option Int :=
  if cs ≠ [] ∧ cs.all Char.isDigit then some (parseDigits cs) else none

/-- One raw publication-info row: `(id, publication_date, publication_type)`. -/
structure InfoRaw where
  pubId : List Char
  pubDate : List Char
  pubType : List Char
deriving DecidableEq

/-- Info row after `pub_info_polars_args` column selection: `(id, date)`. -/
structure InfoRow where
  pubId : List Char
  pubDate : List Char
deriving DecidableEq

/-- Info row carrying the `_min_date` column added by `prepare_min_date`
(`none` models a null from a failed strict parse). -/
structure InfoMin where
  pubId : List Char
  pubDate : List Char
  minDate : Option MDate
deriving DecidableEq

/-- Info row after `clean_date`: the date column is now a non-null date. -/
structure InfoClean where
  pubId : List Char
  pubDate : MDate
  minDate : Option MDate
deriving DecidableEq

/-- One raw edge row: citing id and cited id. -/
structure EdgeRow where
  citing : List Char
  cited : List Char
deriving DecidableEq

/-- `pub_info_polars_args`: keep rows of the configured publication type and
select the id and date columns. -/
def pub_info_polars_args (ptv : List Char) (rows : List InfoRaw) : List InfoRow :=
  (rows.filter (fun r => decide (r.pubType = ptv))).map (fun r => ⟨r.pubId, r.pubDate⟩)

/-- Polars `str.slice(offset, length)` on a string column (by character). -/
def strSlice (cs : List Char) (o l : Nat) : List Char := (cs.drop o).take l

/-- The string `year + - + month + - + day` that `prepare_min_date` builds:
year is the first four characters; month is characters 5-6 when the string has
at least 7 characters, else `01`; day is characters 8-9 when the string has at
least 10 characters, else `01`. -/
def min_date_string (cs : List Char) : List Char :=
  let y := strSlice cs 0 4
  let m := if 7 ≤ cs.length then strSlice cs 5 2 else ['0', '1']
  let d := if 10 ≤ cs.length then strSlice cs 8 2 else ['0', '1']
  y ++ '-' :: (m ++ '-' :: d)

/-- The `_min_date` value of one raw date string. -/
def min_date_of_raw (cs : List Char) : Option MDate := dateParse (min_date_string cs)

/-- `prepare_min_date` over the whole info frame: adds `_min_date`. -/
def prepare_min_date (rows : List InfoRow) : List InfoMin :=
  rows.map (fun r => ⟨r.pubId, r.pubDate, min_date_of_raw r.pubDate⟩)

/-- `filter_date_cutoff`: with a cutoff configured, keep rows with
`_min_date < cutoff`; a null `_min_date` compares to null and is dropped. -/
def filter_date_cutoff (cutoff : Option MDate) (rows : List InfoMin) : List InfoMin :=
  match cutoff with
  | none => rows
  | some c => rows.filter (fun r =>
      match r.minDate with
      | some d => decide (d < c)
      | none => false)

/-- `remove_edges_before_publish_date`: inner-join each edge's citing and cited
id to the info frame, keep the join rows with `cited_min_date <
citing_min_date` (a null date makes the comparison null, dropping the row),
and select back the two id columns. -/
def remove_edges_before_publish_date (info : List InfoMin) (edges : List EdgeRow) :
    List EdgeRow :=
  edges.flatMap (fun e =>
    (info.filter (fun r => decide (r.pubId = e.citing))).flatMap (fun rs =>
      (info.filter (fun r => decide (r.pubId = e.cited))).filterMap (fun rt =>
        match rt.minDate, rs.minDate with
        | some dt, some ds => if dt < ds then some e else none
        | _, _ => none)))

/-- Two-character zero-padded decimal rendering (`f-string 02d`). -/
def twoDigit (n : Nat) : List Char :=
  if n < 10 then ['0', Nat.digitChar n] else [Nat.digitChar (n / 10), Nat.digitChar (n % 10)]

/-- `fill_date`: split on the separator; a year-only string gains a random
month in 1..12 and day in 1..28, a year-month string a random day in 1..28, a
full date is returned unchanged.  `rm` and `rd` are the random draws. -/
def fill_date (rm rd : Nat) (cs : List Char) : List Char :=
  match cs.splitOn '-' with
  | [_] => cs ++ '-' :: (twoDigit (1 + rm % 12) ++ '-' :: twoDigit (1 + rd % 28))
  | [_, _] => cs ++ '-' :: twoDigit (1 + rd % 28)
  | _ => cs

/-- `clean_date`: map `fill_date` over the date column with fresh random draws
per row, parse with `strict=False`, and drop rows whose parse is null. -/
def clean_date (rng : Nat → Nat × Nat) (rows : List InfoMin) : List InfoClean :=
  rows.enum.filterMap (fun p =>
    match dateParse (fill_date (rng p.1).1 (rng p.1).2 p.2.pubDate) with
    | some d => some ⟨p.2.pubId, d, p.2.minDate⟩
    | none => none)

/-- The `str.replace(^pub\., ) ` step of `ids_to_numeric`. -/
def stripPub (cs : List Char) : List Char :=
  if cs.take 4 = ['p', 'u', 'b', '.'] then cs.drop 4 else cs

/-- `ids_to_numeric` on one id value: strip the `pub.` tag and cast to an
integer (`none` models the strict-cast failure). -/
def idToNumeric (cs : List Char) : Option Int := castInt (stripPub cs)

/-- Edge row after `ids_to_numeric` and `define_source_target`: the citing
column is renamed `source`, the cited column `target`. -/
structure NumEdge where
  source : Option Int
  target : Option Int
deriving DecidableEq

/-- `process_data` after the two scans: filter info rows by publication type
and select columns, add the deterministic `_min_date`, apply the optional
cutoff, prune causality-violating edges, then (and only then) run the
randomized `clean_date`, convert ids to numeric and rename the edge columns.
Returns the edge frame and the info frame. -/
def process_data (ptv : List Char) (cutoff : Option MDate)
    (infoRaw : List InfoRaw) (edgesRaw : List EdgeRow) (rng : Nat → Nat × Nat) :
    List NumEdge × List (Option Int × MDate × Option MDate) :=
  let info0 := pub_info_polars_args ptv infoRaw
  let info1 := prepare_min_date info0
  let info2 := filter_date_cutoff cutoff info1
  let edges1 := remove_edges_before_publish_date info2 edgesRaw
  let info3 := clean_date rng info2
  let edgesOut := edges1.map (fun e => NumEdge.mk (idToNumeric e.citing) (idToNumeric e.cited))
  let infoOut := info3.map (fun r => (idToNumeric r.pubId, r.pubDate, r.minDate))
  (edgesOut, infoOut)

/-- The deterministic minimal date recorded for an id in the info frame. -/
def minDateOf (info : List InfoMin) (x : List Char) : Option MDate :=
  (info.find? (fun r => decide (r.pubId = x))).bind (fun r => r.minDate)

/-- Row of the frame entering `TimeNormalise`: the PageRank output joined with
the info frame.  The derived period columns `month` and `quarter` exist only
after `create_month` / `create_quarter` ran (`none` = column absent); no other
period column is ever present on the pipeline's frame. -/
structure TNRow where
  pr : ℚ
  outDeg : Nat
  date : MDate
deriving DecidableEq

/-- Frame state: rows plus the derived period-key columns (parallel options).
A period key is rendered as the pair of its numeric components, which is
injective exactly as the zero-padded strings of `strftime` are. -/
structure TNFrame where
  rows : List TNRow
  monthCol : Option (List (Nat × Nat))
  quarterCol : Option (List (Nat × Nat))
deriving DecidableEq

/-- `filter_zero_out_degree`: drop rows with zero out-degree. -/
def filter_zero_out_degree (rows : List TNRow) : List TNRow :=
  rows.filter (fun r => decide (0 < r.outDeg))

/-- `create_month`: the `%Y-%m` period key of a row. -/
def monthKey (r : TNRow) : Nat × Nat := (r.date.year, r.date.month)

/-- Polars `dt.quarter()`: 1 for Jan-Mar up to 4 for Oct-Dec. -/
def quarterOf (m : Nat) : Nat := (m + 2) / 3

/-- `create_quarter`: the `%Y-q` period key of a row. -/
def quarterKey (r : TNRow) : Nat × Nat := (r.date.year, quarterOf r.date.month)

/-- Look up the column named by the aggregation on a frame, as `group_by`
does: `none` models the column-not-found error (no `year` or `minimum_valid`
column is ever created). -/
def aggColumn (agg : String) (f : TNFrame) : Option (List (Nat × Nat)) :=
  if agg = "month" then f.monthCol
  else if agg = "quarter" then f.quarterCol
  else none

/-- `find_max_period`: group the frame by the column named by the aggregation
and return the largest group size; `none` models the raised error when that
column does not exist (and the null `.item()` on an empty frame). -/
def find_max_period (agg : String) (f : TNFrame) : Option Nat :=
  match aggColumn agg f with
  | none => none
  | some keys =>
    if keys = [] then none
    else some (keys.dedup.foldl (fun a k => Nat.max a (keys.count k)) 0)

/-- The valid aggregation values declared by `TimeNormalise.AGGREGATIONS`. -/
def AGGREGATIONS : List String := ["year", "quarter", "month", "minimum_valid"]

/-- Stable insertion into a list sorted by `le`. -/
def insertLe (le : TNRow → TNRow → Bool) (a : TNRow) : List TNRow → List TNRow
  | [] => [a]
  | b :: t => if le a b then a :: b :: t else b :: insertLe le a t

/-- Stable sort by `le` (model of the polars stable `sort`). -/
def sortLe (le : TNRow → TNRow → Bool) : List TNRow → List TNRow
  | [] => []
  | a :: t => insertLe le a (sortLe le t)

/-- `df.sort(self.date)`: sort rows by date (calendar key). -/
def sort_by_date (rows : List TNRow) : List TNRow :=
  sortLe (fun a b => decide (a.date.key ≤ b.date.key)) rows

/-- Elements the centered window of width `w` holds to the left of position
`i` (polars centering: the window at `i` spans positions `i - winLeft` to
`i + winRight - 1`). -/
def winLeft (w : Nat) : Nat := w - (w + 1) / 2

/-- Elements the centered window holds at and to the right of position `i`. -/
def winRight (w : Nat) : Nat := (w + 1) / 2

/-- The centered rolling value at position `i` is non-null (window complete,
`min_periods = window_size`). -/
def windowComplete (w L i : Nat) : Prop := winLeft w ≤ i ∧ i + winRight w ≤ L

instance (w L i : Nat) : Decidable (windowComplete w L i) :=
  inferInstanceAs (Decidable (_ ∧ _))

/-- The values inside the centered window at position `i`. -/
def windowVals (w : Nat) (xs : List ℚ) (i : Nat) : List ℚ :=
  (xs.drop (i - winLeft w)).take w

/-- Centered rolling mean at position `i`. -/
def rollingMeanAt (w : Nat) (xs : List ℚ) (i : Nat) : ℚ :=
  (windowVals w xs i).sum / (w : ℚ)

/-- Centered rolling variance (square of `rolling_std`, sample convention
`ddof = 1`) at position `i`. -/
def rollingVarAt (w : Nat) (xs : List ℚ) (i : Nat) : ℚ :=
  ((windowVals w xs i).map (fun x => (x - rollingMeanAt w xs i) ^ 2)).sum / ((w : ℚ) - 1)

/-- Whether the `z_scores` float at position `i` is non-null after
`fill_nan(None)`: the rolling mean and std must be non-null (complete window)
and the division must not be the NaN `0.0 / 0.0` — a zero rolling std with a
zero deviation.  (A zero std forces a zero deviation, proved below, so this is
exactly: complete window and nonzero std.) -/
def zKeptAt (w : Nat) (xs : List ℚ) (i : Nat) : Bool :=
  decide (windowComplete w xs.length i) &&
    !(decide (rollingVarAt w xs i = 0) && decide (xs.getD i 0 - rollingMeanAt w xs i = 0))

/-- Row positions of the date-sorted frame surviving `drop_nulls` on
`rescaled_pr`. -/
def keptIndices (w : Nat) (xs : List ℚ) : List Nat :=
  (List.range xs.length).filter (zKeptAt w xs)

/-- `compute_rescaled_scores`: sort by date, compute the centered rolling
mean/std and the z-score of the metric over the given window, and drop the
rows whose z-score is null.  Returns the surviving rows in order (the
real-valued score columns are irrational in general; survival is decided by
`zKeptAt`, which captures the float null/NaN semantics exactly). -/
def compute_rescaled_scores (w : Nat) (rows : List TNRow) : List TNRow :=
  let s := sort_by_date rows
  let xs := s.map (fun r => r.pr)
  (keptIndices w xs).filterMap (fun i => s[i]?)

/-- `compute_zero_one_scores` on the list of surviving scores: sklearn
`MinMaxScaler` (zero data range falls back to a unit scale) followed by the
fixed epsilon `1e-13`. -/
def compute_zero_one_scores (zs : List ℚ) : List ℚ :=
  match zs with
  | [] => []
  | z0 :: rest =>
    let mn := rest.foldl min z0
    let mx := rest.foldl max z0
    let denom := if mx - mn = 0 then 1 else mx - mn
    zs.map (fun z => (z - mn) / denom + 1 / 10 ^ 13)

/-- `process_normalisation`: validate the aggregation, optionally filter zero
out-degree, create the month or quarter period column when so configured, size
the window by `find_max_period` and run the rescaling.  `none` models the
raised error (invalid aggregation, or `group_by` on a column that was never
created).  The surviving rows are returned; the real-valued score columns
attached to them are handled by the dedicated rescaling definitions. -/
def process_normalisation (agg : String) (filterOutDeg : Bool) (rows : List TNRow) :
    Option (List TNRow) :=
  if agg ∈ AGGREGATIONS then
    let rows1 := if filterOutDeg then filter_zero_out_degree rows else rows
    let f : TNFrame :=
      { rows := rows1
        monthCol := if agg = "month" then some (rows1.map monthKey) else none
        quarterCol := if agg = "quarter" then some (rows1.map quarterKey) else none }
    match find_max_period agg f with
    | none => none
    | some w => some (compute_rescaled_scores w rows1)
  else none

/-- Vertices of the graph `load_graph` builds from the edge list (every vertex
is an endpoint of some edge; `hashed=True` gives each distinct id one
vertex). -/
def vertList (E : List (Int × Int)) : List Int :=
  (E.map Prod.fst ++ E.map Prod.snd).dedup

/-- Vertex set of the graph. -/
def verts (E : List (Int × Int)) : Finset Int := (vertList E).toFinset

/-- Out-degree of a vertex: number of edge rows with this source. -/
def out_degree (E : List (Int × Int)) (u : Int) : Nat :=
  (E.filter (fun e => decide (e.1 = u))).length

/-- In-degree of a vertex: number of edge rows with this target. -/
def in_degree (E : List (Int × Int)) (v : Int) : Nat :=
  (E.filter (fun e => decide (e.2 = v))).length

/-- Adjacency test of the directed graph. -/
def adjB (E : List (Int × Int)) (a b : Int) : Bool := decide ((a, b) ∈ E)

/-- Modelled from the spec: the graph-tool `is_DAG` cycle detection is library
code, specified as standard cycle detection.  `reachLe E k a b` decides
whether a directed path of one up to `k` edges joins `a` to `b`. -/
def reachLe (E : List (Int × Int)) : Nat → Int → Int → Bool
  | 0, _, _ => false
  | k + 1, a, b =>
    adjB E a b || (vertList E).any (fun c => adjB E a c && reachLe E k c b)

/-- Modelled from the spec: `is_DAG` returns true exactly when no vertex lies
on a directed cycle; a cycle, if one exists, visits some vertex twice within
`|V|` steps, so bounded reachability decides the question (the equivalence
with the unbounded cycle predicate is proved below). -/
def is_DAG (E : List (Int × Int)) : Bool :=
  !((vertList E).any (fun v => reachLe E (vertList E).length v v))

/-- A directed cycle: a nonempty edge-chain from some vertex back to itself. -/
def HasCycle (E : List (Int × Int)) : Prop :=
  ∃ v l, List.Chain (fun a b => (a, b) ∈ E) v l ∧ l.getLast? = some v

/-- Modelled from the spec: one iteration of the power-method PageRank solver
(the graph-tool `pagerank` call is library code).  New score = `(1 - d)/N`
(uniform personalisation) plus `d` times the mass arriving along in-edges,
where dangling vertices redistribute their whole mass uniformly. -/
def pr_step (E : List (Int × Int)) (d : ℚ) (s : Int → ℚ) : Int → ℚ := fun v =>
  let N : ℚ := ((verts E).card : ℚ)
  let dang : ℚ := ∑ u ∈ (verts E).filter (fun u => out_degree E u = 0), s u
  (1 - d) / N +
    d * (((E.filter (fun e => decide (e.2 = v))).map
        (fun e => s e.1 / (out_degree E e.1 : ℚ))).sum + dang / N)

/-- Modelled from the spec: iterate `pr_step` until the L1 difference of
successive score vectors drops below `epsilon` or the iteration budget is
spent; report the scores and the iterations used. -/
def pr_loop (E : List (Int × Int)) (d eps : ℚ) : Nat → (Int → ℚ) → ((Int → ℚ) × Nat)
  | 0, s => (s, 0)
  | k + 1, s =>
    let t := pr_step E d s
    if ∑ v ∈ verts E, |t v - s v| < eps then (t, 1)
    else
      let r := pr_loop E d eps k t
      (r.1, r.2 + 1)

/-- Uniform initial score vector `1/N`. -/
def pr_init (E : List (Int × Int)) : Int → ℚ := fun _ => 1 / ((verts E).card : ℚ)

/-- `run_pagerank`: the solver on the loaded graph with the configured
damping, epsilon and iteration cap. -/
def run_pagerank (E : List (Int × Int)) (d eps : ℚ) (maxIter : Nat) : (Int → ℚ) × Nat :=
  pr_loop E d eps maxIter (pr_init E)

/-- `process_pagerank`: load the graph, check acyclicity, and either run the
solver and combine id, score, in-degree and out-degree into the score table,
or report the condition and produce nothing. -/
def process_pagerank (E : List (Int × Int)) (d eps : ℚ) (maxIter : Nat) :
    Option (List (Int × ℚ × Nat × Nat)) :=
  if is_DAG E then
    let s := (run_pagerank E d eps maxIter).1
    some ((vertList E).map (fun v => (v, s v, in_degree E v, out_degree E v)))
  else none

/-- Membership in the pruned edge list decomposes into the originating raw
edge, the matching citing info row and the matching cited info row, whose
minimal dates are non-null and strictly ordered. -/
theorem mem_remove_edges_iff {info : List InfoMin} {edges : List EdgeRow} {e : EdgeRow} :
    e ∈ remove_edges_before_publish_date info edges ↔
      ∃ e0, e0 ∈ edges ∧ e = e0 ∧
        ∃ rs, rs ∈ info ∧ rs.pubId = e0.citing ∧
          ∃ rt, rt ∈ info ∧ rt.pubId = e0.cited ∧
            ∃ dt ds, rt.minDate = some dt ∧ rs.minDate = some ds ∧ dt < ds := by
  constructor
  · intro hmem
    rw [remove_edges_before_publish_date, List.mem_flatMap] at hmem
    obtain ⟨e0, he0, hin⟩ := hmem
    rw [List.mem_flatMap] at hin
    obtain ⟨rs, hrs, hin⟩ := hin
    rw [List.mem_filter] at hrs
    rw [List.mem_filterMap] at hin
    obtain ⟨rt, hrt, hval⟩ := hin
    rw [List.mem_filter] at hrt
    refine ⟨e0, he0, ?_⟩
    split at hval
    · rename_i dt ds hdt hds
      split at hval
      · rename_i hlt
        refine ⟨(Option.some.inj hval).symm, rs, hrs.1, of_decide_eq_true hrs.2,
          rt, hrt.1, of_decide_eq_true hrt.2, dt, ds, hdt, hds, hlt⟩
      · cases hval
    · cases hval
  · rintro ⟨e0, he0, rfl, rs, hrs, hrsid, rt, hrt, hrtid, dt, ds, hdt, hds, hlt⟩
    rw [remove_edges_before_publish_date, List.mem_flatMap]
    refine ⟨e, he0, ?_⟩
    rw [List.mem_flatMap]
    refine ⟨rs, List.mem_filter.2 ⟨hrs, decide_eq_true hrsid⟩, ?_⟩
    rw [List.mem_filterMap]
    refine ⟨rt, List.mem_filter.2 ⟨hrt, decide_eq_true hrtid⟩, ?_⟩
    rw [hdt, hds]
    show (if dt < ds then some e else none) = some e
    rw [if_pos hlt]

/-- With unique ids, `find?` on an id retrieves exactly the one matching row. -/
theorem find_row_of_nodup {info : List InfoMin}
    (hnd : (info.map (fun r => r.pubId)).Nodup) {r : InfoMin} (hr : r ∈ info)
    {x : List Char} (hx : r.pubId = x) :
    info.find? (fun q => decide (q.pubId = x)) = some r := by
  induction info with
  | nil => cases hr
  | cons h t ih =>
    rw [List.map_cons, List.nodup_cons] at hnd
    rcases List.mem_cons.1 hr with rfl | hrt
    · rw [List.find?_cons, hx]
      simp
    · have hne : ¬ (h.pubId = x) := by
        intro hcontra
        have hmm : r.pubId ∈ List.map (fun q => q.pubId) t :=
          List.mem_map_of_mem (fun q => q.pubId) hrt
        rw [hx, ← hcontra] at hmm
        exact hnd.1 hmm
      have step : List.find? (fun q => decide (q.pubId = x)) (h :: t) =
          List.find? (fun q => decide (q.pubId = x)) t := by
        simp [List.find?_cons, hne]
      rw [step]
      exact ih hnd.2 hrt

/-- C1: after temporal edge pruning, every retained edge satisfies
`min_date(target) < min_date(source)` strictly: for every edge in the output
of `remove_edges_before_publish_date` (over metadata with unique ids), the
deterministic minimal date of the cited node is strictly earlier than the
minimal date of the citing node, and in particular the two minimal dates are
never equal. -/
theorem pruned_edges_min_date_strict (info : List InfoMin) (edges : List EdgeRow)
    (hnd : (info.map (fun r => r.pubId)).Nodup) :
    ∀ e ∈ remove_edges_before_publish_date info edges,
      ∃ dt ds, minDateOf info e.cited = some dt ∧ minDateOf info e.citing = some ds ∧
        dt < ds ∧ dt ≠ ds := by
  intro e hmem
  obtain ⟨e0, _, rfl, rs, hrs, hrsid, rt, hrt, hrtid, dt, ds, hdt, hds, hlt⟩ :=
    mem_remove_edges_iff.1 hmem
  refine ⟨dt, ds, ?_, ?_, hlt, ?_⟩
  · rw [minDateOf, find_row_of_nodup hnd hrt hrtid, Option.some_bind, hdt]
  · rw [minDateOf, find_row_of_nodup hnd hrs hrsid, Option.some_bind, hds]
  · intro hcontra
    subst hcontra
    exact Nat.lt_irrefl dt.key hlt

/-- Witness for C1: a concrete two-publication metadata set and surviving
edge; the cited minimal date 2017-01-01 is strictly earlier than the citing
one 2018-05-05. -/
theorem pruned_edges_min_date_strict_witness :
    ∃ dt ds,
      minDateOf (prepare_min_date [⟨"pub.1".toList, "2017-01-01".toList⟩,
        ⟨"pub.2".toList, "2018-05-05".toList⟩]) "pub.1".toList = some dt ∧
      minDateOf (prepare_min_date [⟨"pub.1".toList, "2017-01-01".toList⟩,
        ⟨"pub.2".toList, "2018-05-05".toList⟩]) "pub.2".toList = some ds ∧
      dt < ds ∧ dt ≠ ds :=
  pruned_edges_min_date_strict
    (prepare_min_date [⟨"pub.1".toList, "2017-01-01".toList⟩,
      ⟨"pub.2".toList, "2018-05-05".toList⟩])
    [⟨"pub.2".toList, "pub.1".toList⟩] (by decide)
    ⟨"pub.2".toList, "pub.1".toList⟩ (by decide)

/-- C6: an edge whose source id or target id has no row in the node metadata
is dropped silently: every edge in the pruned output originates from the raw
edge set and has both its citing and cited endpoint present in the metadata
(inner-join semantics); the drop is a filter, not an error. -/
theorem pruned_edges_endpoints_known (info : List InfoMin) (edges : List EdgeRow) :
    ∀ e ∈ remove_edges_before_publish_date info edges,
      e ∈ edges ∧ (∃ r ∈ info, r.pubId = e.citing) ∧ ∃ r ∈ info, r.pubId = e.cited := by
  intro e hmem
  obtain ⟨e0, he0, rfl, rs, hrs, hrsid, rt, hrt, hrtid, _, _, _, _, _⟩ :=
    mem_remove_edges_iff.1 hmem
  exact ⟨he0, ⟨rs, hrs, hrsid⟩, ⟨rt, hrt, hrtid⟩⟩

/-- C3: the pruned edge set does not depend on the random number generator:
two runs of `process_data` on the same input that differ only in the random
draws consumed by `fill_date` return the same edge frame, because `clean_date`
runs only after `remove_edges_before_publish_date` and the causality check
reads only the deterministic `_min_date` column. -/
theorem process_data_edges_rng_independent (ptv : List Char) (cutoff : Option MDate)
    (infoRaw : List InfoRaw) (edgesRaw : List EdgeRow) (rng1 rng2 : Nat → Nat × Nat) :
    (process_data ptv cutoff infoRaw edgesRaw rng1).1 =
      (process_data ptv cutoff infoRaw edgesRaw rng2).1 := rfl

/-- C5 (amended): a metadata row whose deterministic minimal date failed to
parse (null `_min_date`, e.g. a non-digit among the first four characters of
the raw date) contributes no surviving edge: its id appears as neither source
nor target of any pruned edge, so the node enters no graph and receives no
score record; the condition is a row-level filter, never a pipeline abort. -/
theorem null_min_date_contributes_no_edge (info : List InfoMin) (edges : List EdgeRow)
    (x : List Char) (h : ∀ r ∈ info, r.pubId = x → r.minDate = none) :
    x ∉ (remove_edges_before_publish_date info edges).map (fun e => e.citing) ∧
      x ∉ (remove_edges_before_publish_date info edges).map (fun e => e.cited) := by
  constructor
  · intro hmem
    obtain ⟨e, he, hex⟩ := List.mem_map.1 hmem
    obtain ⟨e0, _, rfl, rs, hrs, hrsid, _, _, _, _, ds, _, hds, _⟩ :=
      mem_remove_edges_iff.1 he
    rw [h rs hrs (hrsid.trans hex)] at hds
    cases hds
  · intro hmem
    obtain ⟨e, he, hex⟩ := List.mem_map.1 hmem
    obtain ⟨e0, _, rfl, _, _, _, rt, hrt, hrtid, dt, _, hdt, _, _⟩ :=
      mem_remove_edges_iff.1 he
    rw [h rt hrt (hrtid.trans hex)] at hdt
    cases hdt

/-- Witness for C5 (amended): a publication whose raw date `20ab` makes the
minimal-date parse fail is endpoint of no pruned edge on a concrete input. -/
theorem null_min_date_contributes_no_edge_witness :
    "pub.1".toList ∉ (remove_edges_before_publish_date
        (prepare_min_date [⟨"pub.1".toList, "20ab".toList⟩,
          ⟨"pub.2".toList, "2018-05-05".toList⟩])
        [⟨"pub.2".toList, "pub.1".toList⟩, ⟨"pub.1".toList, "pub.2".toList⟩]).map
        (fun e => e.citing) ∧
      "pub.1".toList ∉ (remove_edges_before_publish_date
        (prepare_min_date [⟨"pub.1".toList, "20ab".toList⟩,
          ⟨"pub.2".toList, "2018-05-05".toList⟩])
        [⟨"pub.2".toList, "pub.1".toList⟩, ⟨"pub.1".toList, "pub.2".toList⟩]).map
        (fun e => e.cited) :=
  null_min_date_contributes_no_edge
    (prepare_min_date [⟨"pub.1".toList, "20ab".toList⟩,
      ⟨"pub.2".toList, "2018-05-05".toList⟩])
    [⟨"pub.2".toList, "pub.1".toList⟩, ⟨"pub.1".toList, "pub.2".toList⟩]
    "pub.1".toList (by decide)

/-- Metadata of the C5 counterexample: `pub.1` has raw date `2017a`, whose
year component is not parseable as an integer, and `pub.2` has a full date. -/
def c5Info : List InfoMin :=
  prepare_min_date (pub_info_polars_args "article".toList
    [⟨"pub.1".toList, "2017a".toList, "article".toList⟩,
     ⟨"pub.2".toList, "2018-05-05".toList, "article".toList⟩])

/-- Edge list of the C5 counterexample: `pub.2` cites `pub.1`. -/
def c5Edges : List EdgeRow := [⟨"pub.2".toList, "pub.1".toList⟩]

/-- Counterexample to C5 as stated: the raw date `2017a` has a year component
(`2017a`, its only separator-split component) that cannot parse as an integer,
yet `prepare_min_date` silently truncates it to the valid minimal date
2017-01-01, the node's incoming edge survives pruning (so the node is ranked),
and only the later randomized `clean_date` drops the row from the metadata
frame — the row is not excluded entirely from ranking. -/
theorem malformed_year_edge_survives :
    castInt "2017a".toList = none ∧
      "2017a".toList.splitOn '-' = ["2017a".toList] ∧
      min_date_of_raw "2017a".toList = some ⟨2017, 1, 1⟩ ∧
      remove_edges_before_publish_date c5Info c5Edges = c5Edges ∧
      (clean_date (fun _ => (0, 0)) c5Info).map (fun r => r.pubId) = ["pub.2".toList] := by
  refine ⟨by decide, by decide, by decide, by decide, by decide⟩

/-- A fixed-width parse succeeds on a digit string of the right length. -/
theorem parseFixedNat_of_digits {cs : List Char} {n : Nat}
    (h1 : cs.length = n) (h2 : cs.all Char.isDigit = true) :
    parseFixedNat n cs = some (parseDigits cs) := by
  simp [parseFixedNat, h1, h2]

/-- Every month has at least one day. -/
theorem one_le_daysInMonth (y m : Nat) : 1 ≤ daysInMonth y m := by
  rw [daysInMonth]
  split
  · split <;> omega
  · split <;> omega

/-- The strict parser on a string assembled from fields of widths 4, 2 and 2
reduces to the range check on the three parsed components. -/
theorem dateParse_fields (y m d : List Char)
    (hy : y.length = 4) (hm : m.length = 2) (hd : d.length = 2)
    (hyd : y.all Char.isDigit = true) (hmd : m.all Char.isDigit = true)
    (hdd : d.all Char.isDigit = true) :
    dateParse (y ++ '-' :: (m ++ '-' :: d)) =
      mkValidDate (parseDigits y) (parseDigits m) (parseDigits d) := by
  have hlen : (y ++ '-' :: (m ++ '-' :: d)).length = 10 := by
    simp [hy, hm, hd]
  have hdrop4 : (y ++ '-' :: (m ++ '-' :: d)).drop 4 = '-' :: (m ++ '-' :: d) :=
    List.drop_left' hy
  have hdrop5 : (y ++ '-' :: (m ++ '-' :: d)).drop 5 = m ++ '-' :: d := by
    rw [show (5 : Nat) = 4 + 1 from rfl, ← List.drop_drop, hdrop4]
    rfl
  have hdropm : (m ++ '-' :: d).drop 2 = '-' :: d := List.drop_left' hm
  have hdrop8 : (y ++ '-' :: (m ++ '-' :: d)).drop 8 = d := by
    rw [show (8 : Nat) = 5 + 3 from rfl, ← List.drop_drop, hdrop5,
      show (3 : Nat) = 2 + 1 from rfl, ← List.drop_drop, hdropm]
    rfl
  have h4 : (y ++ '-' :: (m ++ '-' :: d))[4]? = some '-' := by
    rw [show (4 : Nat) = 4 + 0 from rfl, ← List.getElem?_drop, hdrop4]
    exact List.getElem?_cons_zero
  have h7 : (y ++ '-' :: (m ++ '-' :: d))[7]? = some '-' := by
    rw [show (7 : Nat) = 5 + 2 from rfl, ← List.getElem?_drop, hdrop5,
      show (2 : Nat) = 2 + 0 from rfl, ← List.getElem?_drop, hdropm]
    exact List.getElem?_cons_zero
  have htake : (y ++ '-' :: (m ++ '-' :: d)).take 4 = y := List.take_left' hy
  have hmidtake : ((y ++ '-' :: (m ++ '-' :: d)).drop 5).take 2 = m := by
    rw [hdrop5]
    exact List.take_left' hm
  have hdaytake : ((y ++ '-' :: (m ++ '-' :: d)).drop 8).take 2 = d := by
    rw [hdrop8, ← hd]
    exact List.take_length d
  rw [dateParse, if_pos ⟨hlen, h4, h7⟩, htake, hmidtake, hdaytake,
    parseFixedNat_of_digits hy hyd, parseFixedNat_of_digits hm hmd,
    parseFixedNat_of_digits hd hdd]

/-- C4: minimal-date derivation is deterministic component-defaulting: as a
pure function of the raw string it returns the same `_min_date` on every
evaluation, and maps a year-only string to `year-01-01`, a year-month string
to `year-month-01`, and a full `year-month-day` string to itself (missing
month and day default to `01`), for well-formed zero-padded components. -/
theorem min_date_component_defaults (y m d : List Char)
    (hy : y.length = 4) (hyd : y.all Char.isDigit = true)
    (hm : m.length = 2) (hmd : m.all Char.isDigit = true)
    (hm1 : 1 ≤ parseDigits m) (hm2 : parseDigits m ≤ 12)
    (hd : d.length = 2) (hdd : d.all Char.isDigit = true)
    (hd1 : 1 ≤ parseDigits d)
    (hd2 : parseDigits d ≤ daysInMonth (parseDigits y) (parseDigits m)) :
    min_date_of_raw y = some ⟨parseDigits y, 1, 1⟩ ∧
      min_date_of_raw (y ++ '-' :: m) = some ⟨parseDigits y, parseDigits m, 1⟩ ∧
      min_date_of_raw (y ++ '-' :: (m ++ '-' :: d)) =
        some ⟨parseDigits y, parseDigits m, parseDigits d⟩ := by
  have hz : parseDigits ['0', '1'] = 1 := by decide
  have hzd : (['0', '1'] : List Char).all Char.isDigit = true := by decide
  have hzl : (['0', '1'] : List Char).length = 2 := by decide
  refine ⟨?_, ?_, ?_⟩
  · have hs : min_date_string y = y ++ '-' :: (['0', '1'] ++ '-' :: ['0', '1']) := by
      rw [min_date_string]
      have h7 : ¬ (7 ≤ y.length) := by omega
      have h10 : ¬ (10 ≤ y.length) := by omega
      simp only [h7, h10, if_false]
      rw [strSlice, List.drop_zero, ← hy, List.take_length]
    rw [min_date_of_raw, hs, dateParse_fields y _ _ hy hzl hzl hyd hzd hzd, hz,
      mkValidDate, if_pos]
    exact ⟨by omega, by omega, by omega, one_le_daysInMonth _ _⟩
  · have hs : min_date_string (y ++ '-' :: m) = y ++ '-' :: (m ++ '-' :: ['0', '1']) := by
      rw [min_date_string]
      have hlen : (y ++ '-' :: m).length = 7 := by simp [hy, hm]
      have h7 : 7 ≤ (y ++ '-' :: m).length := by omega
      have h10 : ¬ (10 ≤ (y ++ '-' :: m).length) := by omega
      simp only [h7, h10, if_true, if_false]
      have hy' : strSlice (y ++ '-' :: m) 0 4 = y := by
        rw [strSlice, List.drop_zero]
        exact List.take_left' hy
      have hm' : strSlice (y ++ '-' :: m) 5 2 = m := by
        rw [strSlice, show (5 : Nat) = 4 + 1 from rfl, ← List.drop_drop,
          List.drop_left' hy, List.drop_one, List.tail_cons, ← hm]
        exact List.take_length m
      rw [hy', hm']
    rw [min_date_of_raw, hs, dateParse_fields y _ _ hy hm hzl hyd hmd hzd, hz,
      mkValidDate, if_pos]
    exact ⟨hm1, hm2, by omega, one_le_daysInMonth _ _⟩
  · have hs : min_date_string (y ++ '-' :: (m ++ '-' :: d)) =
        y ++ '-' :: (m ++ '-' :: d) := by
      rw [min_date_string]
      have hlen : (y ++ '-' :: (m ++ '-' :: d)).length = 10 := by simp [hy, hm, hd]
      have h7 : 7 ≤ (y ++ '-' :: (m ++ '-' :: d)).length := by omega
      have h10 : 10 ≤ (y ++ '-' :: (m ++ '-' :: d)).length := by omega
      simp only [h7, h10, if_true]
      have hy' : strSlice (y ++ '-' :: (m ++ '-' :: d)) 0 4 = y := by
        rw [strSlice, List.drop_zero]
        exact List.take_left' hy
      have hdrop5 : (y ++ '-' :: (m ++ '-' :: d)).drop 5 = m ++ '-' :: d := by
        rw [show (5 : Nat) = 4 + 1 from rfl, ← List.drop_drop, List.drop_left' hy]
        rfl
      have hm' : strSlice (y ++ '-' :: (m ++ '-' :: d)) 5 2 = m := by
        rw [strSlice, hdrop5]
        exact List.take_left' hm
      have hd' : strSlice (y ++ '-' :: (m ++ '-' :: d)) 8 2 = d := by
        rw [strSlice, show (8 : Nat) = 5 + 3 from rfl, ← List.drop_drop, hdrop5,
          show (3 : Nat) = 2 + 1 from rfl, ← List.drop_drop, List.drop_left' hm,
          List.drop_one, List.tail_cons, ← hd]
        exact List.take_length d
      rw [hy', hm', hd']
    rw [min_date_of_raw, hs, dateParse_fields y m d hy hm hd hyd hmd hdd,
      mkValidDate, if_pos]
    exact ⟨hm1, hm2, hd1, hd2⟩

/-- Witness for C4: the raw strings `2020`, `2020-03` and `2020-03-15` map to
the minimal dates 2020-01-01, 2020-03-01 and 2020-03-15. -/
theorem min_date_component_defaults_witness :
    min_date_of_raw "2020".toList = some ⟨parseDigits "2020".toList, 1, 1⟩ ∧
      min_date_of_raw ("2020".toList ++ '-' :: "03".toList) =
        some ⟨parseDigits "2020".toList, parseDigits "03".toList, 1⟩ ∧
      min_date_of_raw ("2020".toList ++ '-' :: ("03".toList ++ '-' :: "15".toList)) =
        some ⟨parseDigits "2020".toList, parseDigits "03".toList, parseDigits "15".toList⟩ :=
  min_date_component_defaults "2020".toList "03".toList "15".toList
    (by decide) (by decide) (by decide) (by decide) (by decide) (by decide)
    (by decide) (by decide) (by decide) (by decide)

/-- Sample frame for the C8 evaluation: four ranked publications as produced
by the join of PageRank output with the info frame — its columns are id,
score, degrees and the date; no `year` or `minimum_valid` column exists. -/
def c8Rows : List TNRow :=
  [⟨5, 1, ⟨2020, 1, 15⟩⟩, ⟨7, 2, ⟨2020, 2, 15⟩⟩, ⟨3, 1, ⟨2020, 4, 10⟩⟩,
   ⟨4, 1, ⟨2021, 1, 1⟩⟩]

/-- C8 (code bug): the class declares `year` and `minimum_valid` valid
aggregations, but `process_normalisation` creates only the `month` and
`quarter` period columns, so `find_max_period`'s `group_by` on the column
named by the aggregation fails for `year` and `minimum_valid` on the
pipeline's frame (no period key is assigned, no window is computed), while
for a created column the window size is the maximum count of rows sharing one
period key (here 2 for the busiest quarter). -/
theorem year_aggregation_not_created :
    "year" ∈ AGGREGATIONS ∧ "minimum_valid" ∈ AGGREGATIONS ∧ c8Rows ≠ [] ∧
      process_normalisation "year" false c8Rows = none ∧
      process_normalisation "minimum_valid" false c8Rows = none ∧
      find_max_period "quarter"
        { rows := c8Rows, monthCol := none,
          quarterCol := some (c8Rows.map quarterKey) } = some 2 := by
  refine ⟨by decide, by decide, by decide, by decide, by decide, by decide⟩

/-- The running minimum of a fold is a lower bound of the start and of every
element. -/
theorem foldl_min_bounds (l : List ℚ) (a : ℚ) :
    l.foldl min a ≤ a ∧ ∀ x ∈ l, l.foldl min a ≤ x := by
  induction l generalizing a with
  | nil => exact ⟨le_refl a, by intro x hx; cases hx⟩
  | cons b t ih =>
    refine ⟨le_trans (ih (min a b)).1 (min_le_left a b), ?_⟩
    intro x hx
    rcases List.mem_cons.1 hx with rfl | hxt
    · exact le_trans (ih (min a x)).1 (min_le_right a x)
    · exact (ih (min a b)).2 x hxt

/-- The running maximum of a fold is an upper bound of the start and of every
element. -/
theorem foldl_max_bounds (l : List ℚ) (a : ℚ) :
    a ≤ l.foldl max a ∧ ∀ x ∈ l, x ≤ l.foldl max a := by
  induction l generalizing a with
  | nil => exact ⟨le_refl a, by intro x hx; cases hx⟩
  | cons b t ih =>
    refine ⟨le_trans (le_max_left a b) (ih (max a b)).1, ?_⟩
    intro x hx
    rcases List.mem_cons.1 hx with rfl | hxt
    · exact le_trans (le_max_right a x) (ih (max a x)).1
    · exact (ih (max a b)).2 x hxt

/-- `getD` through a map at a valid index applies the function. -/
theorem getD_map_of_lt (l : List ℚ) (f : ℚ → ℚ) (i : Nat) (h : i < l.length) :
    (l.map f).getD i 0 = f (l.getD i 0) := by
  rw [List.getD_eq_getElem?_getD, List.getD_eq_getElem?_getD, List.getElem?_map,
    List.getElem?_eq_getElem h]
  rfl

/-- C10: `compute_zero_one_scores` maps the surviving z-scores onto a strictly
positive range by the linear map `(z - min) / (max - min)` plus the fixed
epsilon `1e-13`: the outputs are a strictly increasing affine image of the
inputs — for every index pair the order of outputs matches the order of
inputs — and every output is strictly positive. -/
theorem zero_one_scores_affine (zs : List ℚ) (hne : zs ≠ []) :
    (∀ i j, i < zs.length → j < zs.length →
      ((compute_zero_one_scores zs).getD i 0 < (compute_zero_one_scores zs).getD j 0 ↔
        zs.getD i 0 < zs.getD j 0)) ∧
      ∀ x ∈ compute_zero_one_scores zs, 0 < x := by
  match zs, hne with
  | z0 :: rest, _ =>
    have hout : compute_zero_one_scores (z0 :: rest) =
        (z0 :: rest).map (fun z => (z - rest.foldl min z0) /
          (if rest.foldl max z0 - rest.foldl min z0 = 0 then 1
            else rest.foldl max z0 - rest.foldl min z0) + 1 / 10 ^ 13) := rfl
    have hmn : ∀ z ∈ z0 :: rest, rest.foldl min z0 ≤ z := by
      intro z hz
      rcases List.mem_cons.1 hz with rfl | hzr
      · exact (foldl_min_bounds rest z).1
      · exact (foldl_min_bounds rest z0).2 z hzr
    have hdenom : 0 < (if rest.foldl max z0 - rest.foldl min z0 = 0 then 1
        else rest.foldl max z0 - rest.foldl min z0) := by
      by_cases h : rest.foldl max z0 - rest.foldl min z0 = 0
      · rw [if_pos h]; norm_num
      · rw [if_neg h]
        have h1 : rest.foldl min z0 ≤ z0 := (foldl_min_bounds rest z0).1
        have h2 : z0 ≤ rest.foldl max z0 := (foldl_max_bounds rest z0).1
        have : 0 ≤ rest.foldl max z0 - rest.foldl min z0 := by linarith
        exact lt_of_le_of_ne this (Ne.symm h)
    constructor
    · intro i j hi hj
      rw [hout, getD_map_of_lt _ _ i hi, getD_map_of_lt _ _ j hj,
        add_lt_add_iff_right, div_lt_div_iff_of_pos_right hdenom, sub_lt_sub_iff_right]
    · intro x hx
      rw [hout] at hx
      obtain ⟨z, hz, rfl⟩ := List.mem_map.1 hx
      have h1 : 0 ≤ (z - rest.foldl min z0) /
          (if rest.foldl max z0 - rest.foldl min z0 = 0 then 1
            else rest.foldl max z0 - rest.foldl min z0) :=
        div_nonneg (sub_nonneg.2 (hmn z hz)) hdenom.le
      have h2 : (0 : ℚ) < 1 / 10 ^ 13 := by norm_num
      linarith

/-- Witness for C10: on the surviving scores `[3, 1, 2]` the second output is
below the first, matching `1 < 3`. -/
theorem zero_one_scores_affine_witness :
    (compute_zero_one_scores [3, 1, 2]).getD 1 0 <
      (compute_zero_one_scores [3, 1, 2]).getD 0 0 :=
  ((zero_one_scores_affine [3, 1, 2] (by decide)).1 1 0 (by decide) (by decide)).2
    (by decide)

/-- Insertion preserves length. -/
theorem insertLe_length (le : TNRow → TNRow → Bool) (a : TNRow) (l : List TNRow) :
    (insertLe le a l).length = l.length + 1 := by
  induction l with
  | nil => rfl
  | cons b t ih =>
    rw [insertLe]
    split
    · rfl
    · simp only [List.length_cons, ih]

/-- The stable sort preserves length. -/
theorem sortLe_length (le : TNRow → TNRow → Bool) (l : List TNRow) :
    (sortLe le l).length = l.length := by
  induction l with
  | nil => rfl
  | cons a t ih =>
    rw [sortLe, insertLe_length, ih]
    rfl

/-- Sorting by date preserves length. -/
theorem sort_by_date_length (rows : List TNRow) :
    (sort_by_date rows).length = rows.length := sortLe_length _ rows

/-- A complete centered window holds exactly `w` values. -/
theorem windowVals_length {w i : Nat} (xs : List ℚ)
    (hc : windowComplete w xs.length i) : (windowVals w xs i).length = w := by
  obtain ⟨h1, h2⟩ := hc
  rw [windowVals, List.length_take, List.length_drop]
  unfold winLeft winRight at *
  omega

/-- The value at the centered position lies inside its own window. -/
theorem self_mem_windowVals {w i : Nat} (xs : List ℚ) (hw : 1 ≤ w)
    (hc : windowComplete w xs.length i) : xs.getD i 0 ∈ windowVals w xs i := by
  obtain ⟨h1, h2⟩ := hc
  have hwl : winLeft w < w := by unfold winLeft winRight at *; omega
  have hix : i < xs.length := by unfold winLeft winRight at *; omega
  have hval : (windowVals w xs i)[winLeft w]? = some (xs.getD i 0) := by
    rw [windowVals, List.getElem?_take, if_pos hwl, List.getElem?_drop]
    have hidx : i - winLeft w + winLeft w = i := by omega
    rw [hidx, List.getD_eq_getElem?_getD, List.getElem?_eq_getElem hix]
    rfl
  exact List.getElem?_mem hval

/-- A list of squared deviations with zero sum forces every element to equal
the mean. -/
theorem map_sq_sum_zero {l : List ℚ} {c : ℚ}
    (h : (l.map (fun x => (x - c) ^ 2)).sum = 0) : ∀ x ∈ l, x = c := by
  induction l with
  | nil => intro x hx; cases hx
  | cons b t ih =>
    rw [List.map_cons, List.sum_cons] at h
    have hb : 0 ≤ (b - c) ^ 2 := sq_nonneg _
    have ht : 0 ≤ (t.map (fun x => (x - c) ^ 2)).sum := by
      apply List.sum_nonneg
      intro y hy
      obtain ⟨x, _, rfl⟩ := List.mem_map.1 hy
      exact sq_nonneg _
    intro x hx
    rcases List.mem_cons.1 hx with rfl | hxt
    · have hb0 : (x - c) ^ 2 = 0 := by linarith
      have := (pow_eq_zero_iff two_ne_zero).1 hb0
      exact sub_eq_zero.1 this
    · exact ih (by linarith) x hxt

/-- A zero rolling variance forces a zero deviation at the centered position:
the `0.0 / 0.0` NaN is the only way a zero rolling std meets the division. -/
theorem dev_zero_of_var_zero {w i : Nat} (xs : List ℚ) (hw : 2 ≤ w)
    (hc : windowComplete w xs.length i) (hv : rollingVarAt w xs i = 0) :
    xs.getD i 0 - rollingMeanAt w xs i = 0 := by
  rw [rollingVarAt, div_eq_zero_iff] at hv
  have hwne : ((w : ℚ) - 1) ≠ 0 := by
    have h2 : (2 : ℚ) ≤ (w : ℚ) := by exact_mod_cast hw
    linarith
  have hsum : ((windowVals w xs i).map
      (fun x => (x - rollingMeanAt w xs i) ^ 2)).sum = 0 := by
    rcases hv with h | h
    · exact h
    · exact absurd h hwne
  exact sub_eq_zero.2 (map_sq_sum_zero hsum _ (self_mem_windowVals xs (by omega) hc))

/-- The survivors of the null-drop are exactly the positions with a complete
centered window and a nonzero rolling variance. -/
theorem keptIndices_eq (w : Nat) (xs : List ℚ) (hw : 2 ≤ w) :
    keptIndices w xs = (List.range xs.length).filter
      (fun i => decide (windowComplete w xs.length i) &&
        !decide (rollingVarAt w xs i = 0)) := by
  rw [keptIndices]
  apply List.filter_congr
  intro i _
  rw [zKeptAt]
  by_cases hc : windowComplete w xs.length i
  · by_cases hv : rollingVarAt w xs i = 0
    · have hd := dev_zero_of_var_zero xs hw hc hv
      rw [decide_eq_true hc, decide_eq_true hv, decide_eq_true hd]
      rfl
    · rw [decide_eq_true hc, decide_eq_false hv]
      rfl
  · rw [decide_eq_false hc]
    rfl

/-- `filterMap` by a total indexing returns one row per index. -/
theorem filterMap_getElem_length (s : List TNRow) (l : List Nat)
    (h : ∀ i ∈ l, i < s.length) :
    (l.filterMap (fun i => s[i]?)).length = l.length := by
  induction l with
  | nil => rfl
  | cons a t ih =>
    obtain ⟨b, hb⟩ : ∃ b, s[a]? = some b := by
      rw [List.getElem?_eq_getElem (h a (List.mem_cons_self a t))]
      exact ⟨_, rfl⟩
    rw [List.filterMap_cons, hb]
    simp only [List.length_cons]
    rw [ih (fun i hi => h i (List.mem_cons_of_mem a hi))]

/-- Counting the positions with a complete centered window below `L`. -/
theorem length_filter_range_complete (w M : Nat) (L : Nat) :
    ((List.range L).filter (fun i => decide (windowComplete w M i))).length =
      Nat.min L (M + 1 - winRight w) - winLeft w := by
  induction L with
  | zero =>
    simp only [List.range_zero, List.filter_nil, List.length_nil, Nat.min_def]
    split <;> omega
  | succ L ih =>
    rw [List.range_succ, List.filter_append, List.length_append, ih]
    by_cases hp : windowComplete w M L
    · have hone : (List.filter (fun i => decide (windowComplete w M i)) [L]).length = 1 := by
        simp [List.filter_cons, hp]
      rw [hone]
      simp only [windowComplete, winLeft, winRight] at hp
      simp only [Nat.min_def, winLeft, winRight]
      split <;> split <;> omega
    · have hzero : (List.filter (fun i => decide (windowComplete w M i)) [L]).length = 0 := by
        simp [List.filter_cons, hp]
      rw [hzero]
      simp only [windowComplete, winLeft, winRight] at hp
      simp only [Nat.min_def, winLeft, winRight]
      split <;> split <;> omega

/-- An incomplete centered window occurs only within half a window of a
sequence boundary. -/
theorem incomplete_near_boundary {w L i : Nat} (hi : i < L)
    (hnc : ¬ windowComplete w L i) : 2 * i < w ∨ 2 * (L - 1 - i) < w := by
  simp only [windowComplete, winLeft, winRight] at hnc
  omega

/-- C9: in `compute_rescaled_scores` over a date-sorted sequence of length `L`
with window size `w`, exactly the records with a complete centered rolling
window and a nonzero rolling variance survive; the dropped window-incomplete
positions all lie within `w/2` of a sequence boundary; and when no rolling
variance is zero exactly `L - w + 1` records survive. -/
theorem rolling_window_survivors (rows : List TNRow) (w : Nat)
    (hw : 2 ≤ w) (hL : w ≤ rows.length) :
    (keptIndices w ((sort_by_date rows).map (fun r => r.pr)) =
        (List.range rows.length).filter (fun i =>
          decide (windowComplete w rows.length i) &&
            !decide (rollingVarAt w ((sort_by_date rows).map (fun r => r.pr)) i = 0))) ∧
      (∀ i < rows.length, ¬ windowComplete w rows.length i →
        2 * i < w ∨ 2 * (rows.length - 1 - i) < w) ∧
      ((∀ i < rows.length, windowComplete w rows.length i →
          rollingVarAt w ((sort_by_date rows).map (fun r => r.pr)) i ≠ 0) →
        (compute_rescaled_scores w rows).length = rows.length - w + 1) := by
  have hxs : ((sort_by_date rows).map (fun r => r.pr)).length = rows.length := by
    rw [List.length_map, sort_by_date_length]
  refine ⟨?_, ?_, ?_⟩
  · rw [keptIndices_eq _ _ hw, hxs]
  · intro i hi hnc
    exact incomplete_near_boundary hi hnc
  · intro hvar
    simp only [compute_rescaled_scores]
    have hmem : ∀ i ∈ keptIndices w ((sort_by_date rows).map (fun r => r.pr)),
        i < (sort_by_date rows).length := by
      intro i hi
      rw [keptIndices, List.mem_filter] at hi
      have := List.mem_range.1 hi.1
      rw [hxs] at this
      rw [sort_by_date_length]
      exact this
    rw [filterMap_getElem_length _ _ hmem, keptIndices_eq _ _ hw, hxs]
    have hcongr : (List.range rows.length).filter (fun i =>
        decide (windowComplete w rows.length i) &&
          !decide (rollingVarAt w ((sort_by_date rows).map (fun r => r.pr)) i = 0)) =
        (List.range rows.length).filter (fun i =>
          decide (windowComplete w rows.length i)) := by
      apply List.filter_congr
      intro i hi
      by_cases hc : windowComplete w rows.length i
      · simp [hc, hvar i (List.mem_range.1 hi) hc]
      · simp [hc]
    rw [hcongr, length_filter_range_complete]
    simp only [Nat.min_def, winLeft, winRight]
    split <;> omega

/-- Ten date-sorted sample rows with pairwise distinct scores for the C9
witness. -/
def c9Rows : List TNRow :=
  [⟨1, 1, ⟨2000, 1, 1⟩⟩, ⟨2, 1, ⟨2001, 1, 1⟩⟩, ⟨3, 1, ⟨2002, 1, 1⟩⟩,
   ⟨4, 1, ⟨2003, 1, 1⟩⟩, ⟨5, 1, ⟨2004, 1, 1⟩⟩, ⟨6, 1, ⟨2005, 1, 1⟩⟩,
   ⟨7, 1, ⟨2006, 1, 1⟩⟩, ⟨8, 1, ⟨2007, 1, 1⟩⟩, ⟨9, 1, ⟨2008, 1, 1⟩⟩,
   ⟨10, 1, ⟨2009, 1, 1⟩⟩]

/-- Witness for C9: a sorted sequence of length 10 with window size 4 and no
flat window yields exactly 7 surviving records. -/
theorem rolling_window_survivors_witness :
    (compute_rescaled_scores 4 c9Rows).length = 7 := by
  have hsort : (sort_by_date c9Rows).map (fun r => r.pr) =
      [1, 2, 3, 4, 5, 6, 7, 8, 9, 10] := by decide
  refine (rolling_window_survivors c9Rows 4 (by decide) (by decide)).2.2 ?_
  intro i hi hc
  rw [hsort]
  have h10 : i < 10 := hi
  interval_cases i <;>
    first
      | exact absurd hc (by decide)
      | norm_num [rollingVarAt, windowVals, rollingMeanAt, winLeft, winRight,
          List.take_succ_cons, List.drop_succ_cons]

/-- Summing a per-key list aggregate over a key set covering the list equals
the plain list sum (fibering a list sum by a key). -/
theorem sum_filter_by_key {α : Type} (V : Finset Int) (l : List α) (key : α → Int)
    (f : α → ℚ) (h : ∀ x ∈ l, key x ∈ V) :
    ∑ v ∈ V, ((l.filter (fun x => decide (key x = v))).map f).sum = (l.map f).sum := by
  induction l with
  | nil => simp
  | cons a t ih =>
    have hmem := h a (List.mem_cons_self a t)
    have hsplit : ∀ v ∈ V,
        ((List.filter (fun x => decide (key x = v)) (a :: t)).map f).sum =
          (if v = key a then f a else 0) +
            ((t.filter (fun x => decide (key x = v))).map f).sum := by
      intro v _
      by_cases hv : key a = v
      · simp [List.filter_cons, hv, eq_comm]
      · have hv' : ¬ (v = key a) := fun hcontra => hv hcontra.symm
        simp [List.filter_cons, hv, hv']
    rw [Finset.sum_congr rfl hsplit, Finset.sum_add_distrib,
      Finset.sum_ite_eq' V (key a) (fun _ => f a), if_pos hmem,
      ih (fun x hx => h x (List.mem_cons_of_mem a hx)), List.map_cons, List.sum_cons]

/-- A map with a constant value on a list sums to length times the value. -/
theorem map_const_sum {α : Type} (l : List α) (f : α → ℚ) (c : ℚ)
    (h : ∀ x ∈ l, f x = c) : (l.map f).sum = (l.length : ℚ) * c := by
  induction l with
  | nil => simp
  | cons a t ih =>
    rw [List.map_cons, List.sum_cons, h a (List.mem_cons_self a t),
      ih (fun x hx => h x (List.mem_cons_of_mem a hx)), List.length_cons]
    push_cast
    ring

/-- Every edge source is a vertex. -/
theorem source_mem_verts {E : List (Int × Int)} {e : Int × Int} (he : e ∈ E) :
    e.1 ∈ verts E := by
  rw [verts, List.mem_toFinset, vertList, List.mem_dedup, List.mem_append]
  exact Or.inl (List.mem_map_of_mem Prod.fst he)

/-- Every edge target is a vertex. -/
theorem target_mem_verts {E : List (Int × Int)} {e : Int × Int} (he : e ∈ E) :
    e.2 ∈ verts E := by
  rw [verts, List.mem_toFinset, vertList, List.mem_dedup, List.mem_append]
  exact Or.inr (List.mem_map_of_mem Prod.snd he)

/-- One solver iteration conserves total probability mass: teleportation
contributes `1 - d`, edge flow returns the mass of non-dangling vertices, and
the dangling redistribution returns the rest. -/
theorem pr_step_mass (E : List (Int × Int)) (d : ℚ) (s : Int → ℚ)
    (hN : 1 ≤ (verts E).card) (hmass : ∑ v ∈ verts E, s v = 1) :
    ∑ v ∈ verts E, pr_step E d s v = 1 := by
  have hNQ : ((verts E).card : ℚ) ≠ 0 := Nat.cast_ne_zero.2 (by omega)
  have hflow : ∑ v ∈ verts E,
      ((E.filter (fun e => decide (e.2 = v))).map
        (fun e => s e.1 / (out_degree E e.1 : ℚ))).sum =
      ∑ u ∈ verts E, (if out_degree E u = 0 then 0 else s u) := by
    rw [sum_filter_by_key (verts E) E Prod.snd _ (fun e he => target_mem_verts he),
      ← sum_filter_by_key (verts E) E Prod.fst
        (fun e => s e.1 / (out_degree E e.1 : ℚ)) (fun e he => source_mem_verts he)]
    apply Finset.sum_congr rfl
    intro u _
    have hconst : ∀ e ∈ E.filter (fun e => decide (e.1 = u)),
        s e.1 / (out_degree E e.1 : ℚ) = s u / (out_degree E u : ℚ) := by
      intro e he
      rw [of_decide_eq_true (List.mem_filter.1 he).2]
    rw [map_const_sum _ _ _ hconst]
    have hlen : (E.filter (fun e => decide (e.1 = u))).length = out_degree E u := rfl
    rw [hlen]
    by_cases h0 : out_degree E u = 0
    · rw [if_pos h0, h0]
      simp
    · rw [if_neg h0, mul_comm, div_mul_cancel₀]
      exact Nat.cast_ne_zero.2 h0
  have hdang : ∑ u ∈ (verts E).filter (fun u => out_degree E u = 0), s u =
      ∑ u ∈ verts E, (if out_degree E u = 0 then s u else 0) :=
    Finset.sum_filter (fun u => out_degree E u = 0) s
  simp only [pr_step]
  rw [Finset.sum_add_distrib, Finset.sum_const, ← Finset.mul_sum,
    Finset.sum_add_distrib, Finset.sum_const, hflow]
  rw [nsmul_eq_mul, nsmul_eq_mul, hdang]
  have hcomb : ∑ u ∈ verts E, (if out_degree E u = 0 then 0 else s u) +
      ((verts E).card : ℚ) *
        ((∑ u ∈ verts E, (if out_degree E u = 0 then s u else 0)) / ((verts E).card : ℚ)) =
      ∑ u ∈ verts E, s u := by
    rw [mul_comm, div_mul_cancel₀ _ hNQ, ← Finset.sum_add_distrib]
    apply Finset.sum_congr rfl
    intro u _
    by_cases h0 : out_degree E u = 0
    · simp [h0]
    · simp [h0]
  rw [hcomb, hmass, mul_comm ((verts E).card : ℚ) ((1 - d) / ((verts E).card : ℚ)),
    div_mul_cancel₀ _ hNQ]
  ring

/-- The uniform start vector has total mass one. -/
theorem pr_init_mass (E : List (Int × Int)) (hN : 1 ≤ (verts E).card) :
    ∑ v ∈ verts E, pr_init E v = 1 := by
  have hNQ : ((verts E).card : ℚ) ≠ 0 := Nat.cast_ne_zero.2 (by omega)
  simp only [pr_init]
  rw [Finset.sum_const, nsmul_eq_mul, mul_one_div, div_self hNQ]

/-- Every number of solver iterations conserves total mass, whether the loop
stops on convergence or on the iteration budget. -/
theorem pr_loop_mass (E : List (Int × Int)) (d eps : ℚ) (hN : 1 ≤ (verts E).card) :
    ∀ (k : Nat) (s : Int → ℚ), ∑ v ∈ verts E, s v = 1 →
      ∑ v ∈ verts E, (pr_loop E d eps k s).1 v = 1 := by
  intro k
  induction k with
  | zero => intro s h; exact h
  | succ k ih =>
    intro s h
    simp only [pr_loop]
    split
    · exact pr_step_mass E d s hN h
    · exact ih _ (pr_step_mass E d s hN h)

/-- C7: for every graph with at least one vertex and damping in `(0, 1)`, the
scores returned by `run_pagerank` sum exactly to one over the rationals (so a
fortiori within any floating-point tolerance), dangling vertices included:
their whole mass is redistributed uniformly, conserving total mass. -/
theorem pagerank_mass_conserved (E : List (Int × Int)) (d eps : ℚ) (maxIter : Nat)
    (hN : 1 ≤ (verts E).card) (hd : 0 < d ∧ d < 1) :
    ∑ v ∈ verts E, (run_pagerank E d eps maxIter).1 v = 1 :=
  pr_loop_mass E d eps hN maxIter (pr_init E) (pr_init_mass E hN)

/-- Witness for C7: the one-edge graph `1 → 2`, whose vertex 2 is dangling,
keeps total mass one with damping `1/2` over fifty iterations. -/
theorem pagerank_mass_conserved_witness :
    ∑ v ∈ verts [((1 : Int), (2 : Int))],
      (run_pagerank [((1 : Int), (2 : Int))] (1 / 2) (1 / 1000000) 50).1 v = 1 :=
  pagerank_mass_conserved [((1 : Int), (2 : Int))] (1 / 2) (1 / 1000000) 50
    (by decide) (by norm_num)

/-- Bounded reachability is exactly the existence of a nonempty edge-chain of
bounded length. -/
theorem reachLe_iff (E : List (Int × Int)) :
    ∀ (k : Nat) (a b : Int), reachLe E k a b = true ↔
      ∃ l : List Int, l ≠ [] ∧ l.length ≤ k ∧
        List.Chain (fun x y => (x, y) ∈ E) a l ∧ l.getLast? = some b := by
  intro k
  induction k with
  | zero =>
    intro a b
    constructor
    · intro h
      rw [reachLe] at h
      cases h
    · rintro ⟨l, hne, hlen, -, -⟩
      cases l with
      | nil => exact absurd rfl hne
      | cons c t => simp at hlen
  | succ k ih =>
    intro a b
    rw [reachLe, Bool.or_eq_true]
    constructor
    · intro h
      rcases h with h | h
      · exact ⟨[b], by simp, by simp,
          List.Chain.cons (of_decide_eq_true h) List.Chain.nil, by simp⟩
      · rw [List.any_eq_true] at h
        obtain ⟨c, _, hcc⟩ := h
        rw [Bool.and_eq_true] at hcc
        obtain ⟨l, hne, hlen, hch, hlast⟩ := (ih c b).1 hcc.2
        refine ⟨c :: l, by simp, by simpa using Nat.succ_le_succ hlen,
          List.Chain.cons (of_decide_eq_true hcc.1) hch, ?_⟩
        cases l with
        | nil => exact absurd rfl hne
        | cons x t => rw [List.getLast?_cons_cons]; exact hlast
    · rintro ⟨l, hne, hlen, hch, hlast⟩
      cases l with
      | nil => exact absurd rfl hne
      | cons c t =>
        cases hch with
        | cons hadj hch2 =>
          cases t with
          | nil =>
            have hcb : c = b := by simpa using hlast
            subst hcb
            exact Or.inl (decide_eq_true hadj)
          | cons x t2 =>
            refine Or.inr (List.any_eq_true.2 ⟨c, ?_, Bool.and_eq_true _ _ ▸
              ⟨decide_eq_true hadj, (ih c b).2 ⟨x :: t2, by simp, ?_, hch2, ?_⟩⟩⟩)
            · rw [vertList, List.mem_dedup, List.mem_append]
              exact Or.inr (List.mem_map_of_mem Prod.snd hadj)
            · have := hlen
              simp only [List.length_cons] at this ⊢
              omega
            · rw [List.getLast?_cons_cons] at hlast
              exact hlast

/-- Every vertex of an edge-chain is a graph vertex. -/
theorem chain_mem_vertList {E : List (Int × Int)} :
    ∀ {a : Int} {l : List Int}, List.Chain (fun x y => (x, y) ∈ E) a l →
      ∀ x ∈ l, x ∈ vertList E := by
  intro a l
  induction l generalizing a with
  | nil =>
    intro _ x hx
    cases hx
  | cons c t ih =>
    intro hch x hx
    cases hch with
    | cons hadj hch2 =>
      rcases List.mem_cons.1 hx with rfl | hxt
      · rw [vertList, List.mem_dedup, List.mem_append]
        exact Or.inr (List.mem_map_of_mem Prod.snd hadj)
      · exact ih hch2 x hxt

/-- A list with a repetition splits around the repeated element. -/
theorem exists_dup_decomposition {l : List Int} (h : ¬ l.Nodup) :
    ∃ x l1 l2 l3, l = l1 ++ x :: l2 ++ x :: l3 := by
  induction l with
  | nil => exact absurd List.nodup_nil h
  | cons a t ih =>
    by_cases ha : a ∈ t
    · obtain ⟨s, u, rfl⟩ := List.append_of_mem ha
      exact ⟨a, [], s, u, rfl⟩
    · have ht : ¬ t.Nodup := fun hnd => h (List.nodup_cons.2 ⟨ha, hnd⟩)
      obtain ⟨x, l1, l2, l3, rfl⟩ := ih ht
      exact ⟨x, a :: l1, l2, l3, rfl⟩

/-- A list longer than a covering vertex list repeats an element. -/
theorem not_nodup_of_long {l V : List Int} (hsub : ∀ x ∈ l, x ∈ V)
    (hlen : V.length < l.length) : ¬ l.Nodup := by
  intro hnd
  have := (hnd.subperm fun x hx => hsub x hx).length_le
  omega

/-- Any directed cycle yields a vertex reachable from itself within `|V|`
steps: a closed walk longer than the vertex count repeats a vertex and can be
cut short around the repetition. -/
theorem cycle_reachLe (E : List (Int × Int)) :
    ∀ (m : Nat) (v : Int) (l : List Int), l.length = m →
      List.Chain (fun x y => (x, y) ∈ E) v l → l.getLast? = some v →
      ∃ u ∈ vertList E, reachLe E (vertList E).length u u = true := by
  intro m
  induction m using Nat.strong_induction_on with
  | _ m ih =>
    intro v l hlen hch hlast
    have hne : l ≠ [] := by
      intro h
      rw [h] at hlast
      cases hlast
    by_cases hm : m ≤ (vertList E).length
    · have hv : v ∈ vertList E := by
        cases l with
        | nil => exact absurd rfl hne
        | cons c t =>
          cases hch with
          | cons hadj _ =>
            rw [vertList, List.mem_dedup, List.mem_append]
            exact Or.inl (List.mem_map_of_mem Prod.fst hadj)
      exact ⟨v, hv, (reachLe_iff E _ v v).2 ⟨l, hne, hlen ▸ hm, hch, hlast⟩⟩
    · push_neg at hm
      have hdup : ¬ l.Nodup := not_nodup_of_long (chain_mem_vertList hch) (by omega)
      obtain ⟨x, l1, l2, l3, hdec⟩ := exists_dup_decomposition hdup
      have hch' : List.Chain' (fun p q => (p, q) ∈ E) (v :: l) := hch
      have hsplit1 : List.Chain' (fun p q => (p, q) ∈ E) (x :: (l2 ++ x :: l3)) := by
        have hshape : v :: l = (v :: l1) ++ x :: (l2 ++ x :: l3) := by
          rw [hdec]
          simp
        exact (List.chain'_split.1 (hshape ▸ hch')).2
      have hsplit2 : List.Chain' (fun p q => (p, q) ∈ E) ((x :: l2) ++ [x]) := by
        have hshape : x :: (l2 ++ x :: l3) = (x :: l2) ++ x :: l3 := by simp
        exact (List.chain'_split.1 (hshape ▸ hsplit1)).1
      have hch2 : List.Chain (fun p q => (p, q) ∈ E) x (l2 ++ [x]) := hsplit2
      have hlt : (l2 ++ [x]).length < m := by
        have hldec : l.length = l1.length + l2.length + l3.length + 2 := by
          rw [hdec]
          simp only [List.length_append, List.length_cons]
          omega
        simp only [List.length_append, List.length_cons, List.length_nil]
        omega
      exact ih _ hlt x (l2 ++ [x]) rfl hch2 (List.getLast?_concat l2)

/-- The modelled `is_DAG` check answers true exactly on cycle-free graphs. -/
theorem is_DAG_iff_no_cycle (E : List (Int × Int)) :
    is_DAG E = true ↔ ¬ HasCycle E := by
  constructor
  · intro h hcyc
    obtain ⟨v, l, hch, hlast⟩ := hcyc
    obtain ⟨u, hu, hr⟩ := cycle_reachLe E l.length v l rfl hch hlast
    rw [is_DAG, Bool.not_eq_true', List.any_eq_false] at h
    exact h u hu hr
  · intro h
    rw [is_DAG, Bool.not_eq_true', List.any_eq_false]
    intro u hu hr
    obtain ⟨l, -, -, hch, hlast⟩ := (reachLe_iff E _ u u).1 hr
    exact h ⟨u, l, hch, hlast⟩

/-- C2: `process_pagerank` invokes the solver and produces a score table
exactly when the loaded graph has no directed cycle; on a cyclic graph it
reports the condition and produces nothing, before any solver call. -/
theorem pagerank_runs_iff_acyclic (E : List (Int × Int)) (d eps : ℚ) (maxIter : Nat) :
    (process_pagerank E d eps maxIter).isSome = true ↔ ¬ HasCycle E := by
  rw [process_pagerank]
  by_cases h : is_DAG E
  · rw [if_pos h]
    simp [(is_DAG_iff_no_cycle E).1 h]
  · rw [if_neg h]
    have hcyc : HasCycle E := by
      by_contra hnc
      exact h ((is_DAG_iff_no_cycle E).2 hnc)
    simp [hcyc]

/-- Witness for C6: on a concrete metadata set the surviving edge comes from
the raw edge list and both endpoints have metadata rows. -/
theorem pruned_edges_endpoints_known_witness :
    (⟨"pub.2".toList, "pub.1".toList⟩ : EdgeRow) ∈
        [(⟨"pub.2".toList, "pub.1".toList⟩ : EdgeRow)] ∧
      (∃ r ∈ prepare_min_date [⟨"pub.1".toList, "2017-01-01".toList⟩,
          ⟨"pub.2".toList, "2018-05-05".toList⟩],
        r.pubId = (⟨"pub.2".toList, "pub.1".toList⟩ : EdgeRow).citing) ∧
      ∃ r ∈ prepare_min_date [⟨"pub.1".toList, "2017-01-01".toList⟩,
          ⟨"pub.2".toList, "2018-05-05".toList⟩],
        r.pubId = (⟨"pub.2".toList, "pub.1".toList⟩ : EdgeRow).cited :=
  pruned_edges_endpoints_known
    (prepare_min_date [⟨"pub.1".toList, "2017-01-01".toList⟩,
      ⟨"pub.2".toList, "2018-05-05".toList⟩])
    [⟨"pub.2".toList, "pub.1".toList⟩]
    ⟨"pub.2".toList, "pub.1".toList⟩ (by decide)
